import Mathlib

/-!
Shallow embedding of the lldb thread-plan-stack core
(`ThreadPlanStack` / `ThreadPlanStackMap`, declared in
`llvm-project/lldb/include/lldb/Target/ThreadPlanStack.h`).

The repository snapshot contains the full class header, with the
`ThreadPlanStackMap` methods (`AddThread`, `RemoveTID`, `Find`,
`Activate`, `CleanUp`, `Clear`) implemented inline; those are embedded
here directly from that source.  The out-of-line bodies of the
`ThreadPlanStack` methods (`PushPlan`, `PopPlan`, `DiscardPlan`,
`DiscardPlansUpToPlan`, `DiscardConsultingMasterPlans`, the checkpoint
operations and `WillResume`) live in `ThreadPlanStack.cpp`, which is not
part of the snapshot; each of those definitions is modelled from the
specification text and says so in its doc comment.

Conventions of the embedding:
- a plan is identified by a natural-number identity plus the capability
  flags the stack consults (master / okay-to-discard / private);
- `m_plans` (the active stack) is a `List` whose HEAD is the TOP of the
  stack, so pushing is `::`;
- `m_completed_plans` / `m_discarded_plans` are kept in insertion order
  (oldest first), matching the `push_back` discipline of the C++
  `std::vector`, so moving a plan onto them appends at the end;
- `m_completed_plan_store` is an association list from checkpoint token
  to saved snapshot, newest entry first;
- the registry `m_plans_list` (a C++ `std::unordered_map`) is an
  association list from thread id to stack; key uniqueness, which the
  C++ container guarantees, appears as a `Nodup` hypothesis where a
  theorem needs it;
- fallible operations (popping an empty stack, restoring an unknown
  checkpoint token) return `Option`, `none` standing for the fatal
  precondition-violation branch.
-/

set_option autoImplicit false

namespace ThreadPlanModel

/-- An external plan, reduced to the capability surface the stack consults:
a stable identity, the master flag (`IsMasterPlan`), the `OkayToDiscard`
answer, and the private flag (`GetPrivate`). -/
structure ThreadPlan where
  id : Nat
  isMasterPlan : Bool
  okayToDiscard : Bool
  isPrivate : Bool
deriving DecidableEq, Repr

/-- The per-thread plan stack, mirroring the data members of
`ThreadPlanStack`: `m_plans`, `m_completed_plans`, `m_discarded_plans`,
the monotonically increasing checkpoint counter
`m_completed_plan_checkpoint`, and the checkpoint store
`m_completed_plan_store`. -/
structure ThreadPlanStack where
  m_tid : Nat
  m_plans : List ThreadPlan
  m_completed_plans : List ThreadPlan
  m_discarded_plans : List ThreadPlan
  m_completed_plan_checkpoint : Nat
  m_completed_plan_store : List (Nat × List ThreadPlan)
deriving DecidableEq, Repr

namespace ThreadPlanStack

/-- `GetTID`: the stable thread identifier stored in the stack. -/
def GetTID (s : ThreadPlanStack) : Nat :=
  s.m_tid

/-- Modelled from the spec: `PushPlan(plan)` — the plan becomes the new
top of `active`; always succeeds.  (The tracer side effect is outside
the model: no claim mentions it.) -/
def PushPlan (s : ThreadPlanStack) (p : ThreadPlan) : ThreadPlanStack :=
  { s with m_plans := p :: s.m_plans }

/-- Modelled from the spec: `PopPlan()` — removes and returns the top of
`active`, moving it onto `completed`; the empty-stack case is the fatal
precondition violation, rendered as `none`. -/
def PopPlan (s : ThreadPlanStack) : Option (ThreadPlan × ThreadPlanStack) :=
  match s.m_plans with
  | [] => none
  | p :: rest =>
      some (p, { s with
                   m_plans := rest,
                   m_completed_plans := s.m_completed_plans ++ [p] })

/-- Modelled from the spec: `DiscardPlan()` — removes and returns the
top of `active`, moving it onto `discarded`; same empty-stack failure
mode as `PopPlan`. -/
def DiscardPlan (s : ThreadPlanStack) : Option (ThreadPlan × ThreadPlanStack) :=
  match s.m_plans with
  | [] => none
  | p :: rest =>
      some (p, { s with
                   m_plans := rest,
                   m_discarded_plans := s.m_discarded_plans ++ [p] })

/-- Helper for `DiscardPlansUpToPlan`: walk `active` from the top
looking for the target identity; on success return the discarded
plans in top-to-bottom order together with the remaining stack, on a
miss return `none` (search happens before any mutation). -/
def discardUpToAux (t : Nat) : List ThreadPlan → Option (List ThreadPlan × List ThreadPlan)
  | [] => none
  | p :: rest =>
      if p.id == t then some ([p], rest)
      else
        match discardUpToAux t rest with
        | none => none
        | some (d, r) => some (p :: d, r)

/-- Modelled from the spec: `DiscardPlansUpToPlan(target)` — with a null
target, discard the entire `active` stack; with a non-null target,
search the stack first, and only when the target is found discard every
plan down to and including it (a miss is a complete no-op). -/
def DiscardPlansUpToPlan (s : ThreadPlanStack) (target : Option Nat) : ThreadPlanStack :=
  match target with
  | none =>
      { s with
          m_plans := [],
          m_discarded_plans := s.m_discarded_plans ++ s.m_plans }
  | some t =>
      match discardUpToAux t s.m_plans with
      | none => s
      | some (d, r) =>
          { s with
              m_plans := r,
              m_discarded_plans := s.m_discarded_plans ++ d }

/-- Modelled from the spec: `DiscardAllPlans()` — equivalent to
`DiscardPlansUpToPlan(null)`. -/
def DiscardAllPlans (s : ThreadPlanStack) : ThreadPlanStack :=
  DiscardPlansUpToPlan s none

/-- A plan blocks `DiscardConsultingMasterPlans` when its master flag is
set and it answers "not okay to discard". -/
def blocksDiscard (p : ThreadPlan) : Bool :=
  p.isMasterPlan && !p.okayToDiscard

/-- Modelled from the spec: `DiscardConsultingMasterPlans()` — walks
`active` from the top, discarding each plan, but stops before
discarding a plan whose master-plan flag is set and whose
okay-to-discard query returns false. -/
def DiscardConsultingMasterPlans (s : ThreadPlanStack) : ThreadPlanStack :=
  { s with
      m_plans := s.m_plans.dropWhile (fun p => !blocksDiscard p),
      m_discarded_plans :=
        s.m_discarded_plans ++ s.m_plans.takeWhile (fun p => !blocksDiscard p) }

/-- Modelled from the spec: `CheckpointCompletedPlans()` — draws the
next token from the monotonically increasing counter and stores a
snapshot of `completed` under it. -/
def CheckpointCompletedPlans (s : ThreadPlanStack) : Nat × ThreadPlanStack :=
  let tok := s.m_completed_plan_checkpoint + 1
  (tok, { s with
            m_completed_plan_checkpoint := tok,
            m_completed_plan_store :=
              (tok, s.m_completed_plans) :: s.m_completed_plan_store })

/-- Modelled from the spec: `RestoreCompletedPlanCheckpoint(token)` —
an unknown token is a caller error (`none`); a known token puts the
saved snapshot back into `completed` and drops the store entry. -/
def RestoreCompletedPlanCheckpoint (s : ThreadPlanStack) (tok : Nat) :
    Option ThreadPlanStack :=
  match s.m_completed_plan_store.find? (fun pr => pr.1 == tok) with
  | none => none
  | some pr =>
      some { s with
               m_completed_plans := pr.2,
               m_completed_plan_store :=
                 s.m_completed_plan_store.eraseP (fun q => q.1 == tok) }

/-- Modelled from the spec: `DiscardCompletedPlanCheckpoint(token)` —
drops the snapshot held for the token; an unknown token is a caller
error (`none`). -/
def DiscardCompletedPlanCheckpoint (s : ThreadPlanStack) (tok : Nat) :
    Option ThreadPlanStack :=
  match s.m_completed_plan_store.find? (fun pr => pr.1 == tok) with
  | none => none
  | some _ =>
      some { s with
               m_completed_plan_store :=
                 s.m_completed_plan_store.eraseP (fun q => q.1 == tok) }

/-- Modelled from the spec: `WillResume()` — notifies every plan in
`active` of the impending resume (the notified plans are returned as
the first component, in stack order), then clears `completed` and
`discarded` entirely. -/
def WillResume (s : ThreadPlanStack) : List ThreadPlan × ThreadPlanStack :=
  (s.m_plans,
   { s with
       m_completed_plans := [],
       m_discarded_plans := [] })

/-- Push a list of plans in order (first element pushed first). -/
def pushAll (s : ThreadPlanStack) (ps : List ThreadPlan) : ThreadPlanStack :=
  ps.foldl PushPlan s

/-- Pop `n` times; fails if the stack runs empty before the pops end. -/
def popN : Nat → ThreadPlanStack → Option ThreadPlanStack
  | 0, s => some s
  | n + 1, s =>
      match PopPlan s with
      | none => none
      | some (_, s1) => popN n s1

end ThreadPlanStack

/-- The ephemeral live-thread handle, reduced to what the registry
consults: `GetID`. -/
structure Thread where
  tid : Nat
deriving DecidableEq, Repr

/-- `Thread::GetID`. -/
def Thread.GetID (t : Thread) : Nat :=
  t.tid

/-- The `ThreadPlanStack(thread)` constructor: a fresh stack for the
thread, holding its stable identifier and empty plan sequences. -/
def ThreadPlanStack.ofThread (t : Thread) : ThreadPlanStack :=
  { m_tid := t.GetID,
    m_plans := [],
    m_completed_plans := [],
    m_discarded_plans := [],
    m_completed_plan_checkpoint := 0,
    m_completed_plan_store := [] }

/-- Association-list counterpart of `std::unordered_map::find`: the
value at the first entry whose key matches, if any. -/
def mapFind (l : List (Nat × ThreadPlanStack)) (k : Nat) : Option ThreadPlanStack :=
  match l.find? (fun pr => pr.1 == k) with
  | none => none
  | some pr => some pr.2

/-- Association-list counterpart of `std::unordered_map::emplace`: a
no-op when the key is present, otherwise a new entry. -/
def mapEmplace (l : List (Nat × ThreadPlanStack)) (k : Nat) (v : ThreadPlanStack) :
    List (Nat × ThreadPlanStack) :=
  if (l.find? (fun pr => pr.1 == k)).isSome then l else l ++ [(k, v)]

/-- Association-list counterpart of `map.at(k) = v`: replace the value
of the first entry whose key matches. -/
def mapAt : List (Nat × ThreadPlanStack) → Nat → ThreadPlanStack →
    List (Nat × ThreadPlanStack)
  | [], _, _ => []
  | pr :: rest, k, v =>
      if pr.1 == k then (pr.1, v) :: rest else pr :: mapAt rest k v

/-- Association-list counterpart of `std::unordered_map::erase(it)`
after a successful `find(k)`: drop the first entry whose key matches. -/
def mapErase (l : List (Nat × ThreadPlanStack)) (k : Nat) :
    List (Nat × ThreadPlanStack) :=
  l.eraseP (fun pr => pr.1 == k)

/-- `ThreadPlanStackMap`: the process-wide registry, its `m_plans_list`
member (an `std::unordered_map<lldb::tid_t, ThreadPlanStack>`) embedded
as an association list. -/
structure ThreadPlanStackMap where
  m_plans_list : List (Nat × ThreadPlanStack)
deriving DecidableEq, Repr

namespace ThreadPlanStackMap

/-- `AddThread(thread)`: `m_plans_list.emplace(thread.GetID(), thread)` —
the emplace constructs a fresh stack for the thread and does not
overwrite an existing key. -/
def AddThread (m : ThreadPlanStackMap) (t : Thread) : ThreadPlanStackMap :=
  { m_plans_list := mapEmplace m.m_plans_list t.GetID (ThreadPlanStack.ofThread t) }

/-- `Find(tid)`: the stack registered under `tid`, or `none`
(`nullptr`) if absent. -/
def Find (m : ThreadPlanStackMap) (tid : Nat) : Option ThreadPlanStack :=
  mapFind m.m_plans_list tid

/-- `Activate(stack)`: insert-or-overwrite keyed by the stack's own
stored identifier — `emplace` when `find(stack.GetTID())` misses,
`at(stack.GetTID()) = stack` when it hits. -/
def Activate (m : ThreadPlanStackMap) (stack : ThreadPlanStack) : ThreadPlanStackMap :=
  if (mapFind m.m_plans_list stack.GetTID).isNone then
    { m_plans_list := m.m_plans_list ++ [(stack.GetTID, stack)] }
  else
    { m_plans_list := mapAt m.m_plans_list stack.GetTID stack }

/-- Body of the second `CleanUp` loop: find the entry for one
invalidated tid, move its stack out into the detached vector and erase
the entry. -/
def cleanUpStep (acc : List (Nat × ThreadPlanStack) × List ThreadPlanStack)
    (tid : Nat) : List (Nat × ThreadPlanStack) × List ThreadPlanStack :=
  match acc.1.find? (fun pr => pr.1 == tid) with
  | none => acc
  | some pr => (mapErase acc.1 tid, acc.2 ++ [pr.2])

/-- `CleanUp()`: first pass collects the keys whose stack's stored
identifier differs from the key (`pair.second.GetTID() != pair.first`);
second pass finds each such entry, moves the stack out into the
returned vector and erases the entry. -/
def CleanUp (m : ThreadPlanStackMap) : List ThreadPlanStack × ThreadPlanStackMap :=
  let invalidated_tids :=
    (m.m_plans_list.filter (fun pr => !(pr.2.GetTID == pr.1))).map Prod.fst
  let result := invalidated_tids.foldl cleanUpStep (m.m_plans_list, [])
  (result.2, { m_plans_list := result.1 })

/-- `Clear()`: calls `ThreadDestroyed` on every registered stack, then
clears the map.  The `ThreadDestroyed` notification is an external
effect on the plan objects (its body is not part of the stack state
embedded here), so the notified stacks are returned as the first
component, in registry order. -/
def Clear (m : ThreadPlanStackMap) : List ThreadPlanStack × ThreadPlanStackMap :=
  (m.m_plans_list.map Prod.snd, { m_plans_list := [] })

end ThreadPlanStackMap

/-- One mutating operation on a plan stack, used to quantify over
arbitrary call sequences. -/
inductive StackOp where
  | push (p : ThreadPlan)
  | pop
  | discard
  | discardUpTo (target : Option Nat)
  | discardAll
  | discardConsultingMaster
  | willResume
  | checkpoint
  | restore (tok : Nat)
  | dropCheckpoint (tok : Nat)
deriving DecidableEq, Repr

/-- Apply one operation; a fallible operation whose precondition fails
(the fatal branch) leaves the state unchanged, which is conservative
for the monotonicity statements proved below. -/
def applyOp (s : ThreadPlanStack) : StackOp → ThreadPlanStack
  | .push p => s.PushPlan p
  | .pop =>
      match s.PopPlan with
      | none => s
      | some pr => pr.2
  | .discard =>
      match s.DiscardPlan with
      | none => s
      | some pr => pr.2
  | .discardUpTo t => s.DiscardPlansUpToPlan t
  | .discardAll => s.DiscardAllPlans
  | .discardConsultingMaster => s.DiscardConsultingMasterPlans
  | .willResume => s.WillResume.2
  | .checkpoint => s.CheckpointCompletedPlans.2
  | .restore tok =>
      match s.RestoreCompletedPlanCheckpoint tok with
      | none => s
      | some s1 => s1
  | .dropCheckpoint tok =>
      match s.DiscardCompletedPlanCheckpoint tok with
      | none => s
      | some s1 => s1

/-- Run a sequence of operations left to right. -/
def runOps (s : ThreadPlanStack) (ops : List StackOp) : ThreadPlanStack :=
  ops.foldl applyOp s

/-! Sample plans and stacks used by the witness theorems. -/

/-- Sample master plan that refuses to be discarded. -/
def pA : ThreadPlan := ⟨0, true, false, false⟩

/-- Sample ordinary plan. -/
def pB : ThreadPlan := ⟨1, false, true, false⟩

/-- Sample ordinary plan. -/
def pC : ThreadPlan := ⟨2, false, true, false⟩

/-- Sample stack holding plans A (bottom), B, C (top). -/
def sampleStack : ThreadPlanStack := ⟨7, [pC, pB, pA], [], [], 0, []⟩

/-- Sample empty stack with thread identifier 5. -/
def sampleStack2 : ThreadPlanStack := ⟨5, [], [], [], 0, []⟩

namespace ThreadPlanStack

theorem pushAll_eq (ps : List ThreadPlan) :
    ∀ s : ThreadPlanStack, pushAll s ps = { s with m_plans := ps.reverse ++ s.m_plans } := by
  induction ps with
  | nil => intro s; simp [pushAll]
  | cons p ps ih =>
      intro s
      show pushAll (PushPlan s p) ps = _
      rw [ih]
      simp [PushPlan, List.append_assoc]

theorem popN_append (qs : List ThreadPlan) :
    ∀ (s : ThreadPlanStack) (rest : List ThreadPlan), s.m_plans = qs ++ rest →
      popN qs.length s =
        some { s with m_plans := rest,
                      m_completed_plans := s.m_completed_plans ++ qs } := by
  induction qs with
  | nil =>
      intro s rest h
      rw [List.nil_append] at h
      subst h
      simp [popN]
  | cons q qs ih =>
      intro s rest h
      have hpop : PopPlan s =
          some (q, { s with m_plans := qs ++ rest,
                            m_completed_plans := s.m_completed_plans ++ [q] }) := by
        simp [PopPlan, h]
      show popN (qs.length + 1) s = _
      rw [popN, hpop]
      show popN qs.length { s with m_plans := qs ++ rest,
                                   m_completed_plans := s.m_completed_plans ++ [q] } = _
      rw [ih _ rest rfl]
      simp

end ThreadPlanStack

/-- C1: pushing n plans and then popping n times restores `active` to its
original contents (hence its original size); each individual `PopPlan`
removes the current top of `active` and appends it to `completed`; after
the n pops `completed` has gained exactly the n pushed plans, in the
reverse of push order (LIFO). -/
theorem push_pop_lifo :
    (∀ (s : ThreadPlanModel.ThreadPlanStack) (p : ThreadPlanModel.ThreadPlan)
        (rest : List ThreadPlanModel.ThreadPlan),
        s.m_plans = p :: rest →
        s.PopPlan = some (p, { s with
                                 m_plans := rest,
                                 m_completed_plans := s.m_completed_plans ++ [p] })) ∧
    (∀ (s : ThreadPlanModel.ThreadPlanStack) (ps : List ThreadPlanModel.ThreadPlan),
        ThreadPlanStack.popN ps.length (ThreadPlanStack.pushAll s ps) =
          some { s with m_completed_plans := s.m_completed_plans ++ ps.reverse }) := by
  constructor
  · intro s p rest h
    simp [ThreadPlanStack.PopPlan, h]
  · intro s ps
    rw [ThreadPlanStack.pushAll_eq]
    have h := ThreadPlanStack.popN_append ps.reverse
      { s with m_plans := ps.reverse ++ s.m_plans } s.m_plans rfl
    rw [List.length_reverse] at h
    rw [h]

/-- Witness for C1 at a concrete stack holding plans B (top) and A. -/
theorem push_pop_lifo_witness :
    ThreadPlanStack.PopPlan ⟨7, [pB, pA], [], [], 0, []⟩ =
      some (pB, ⟨7, [pA], [pB], [], 0, []⟩) :=
  push_pop_lifo.1 ⟨7, [pB, pA], [], [], 0, []⟩ pB [pA] rfl

theorem checkpoint_counter_mono_applyOp (s : ThreadPlanModel.ThreadPlanStack)
    (op : StackOp) :
    s.m_completed_plan_checkpoint ≤ (applyOp s op).m_completed_plan_checkpoint := by
  cases op with
  | push p => exact le_refl _
  | pop =>
      cases hs : s.m_plans <;> simp [applyOp, ThreadPlanStack.PopPlan, hs]
  | discard =>
      cases hs : s.m_plans <;> simp [applyOp, ThreadPlanStack.DiscardPlan, hs]
  | discardUpTo t =>
      cases t with
      | none => simp [applyOp, ThreadPlanStack.DiscardPlansUpToPlan]
      | some tt =>
          simp only [applyOp, ThreadPlanStack.DiscardPlansUpToPlan]
          cases h : ThreadPlanStack.discardUpToAux tt s.m_plans with
          | none => simp
          | some pr => simp
  | discardAll =>
      simp [applyOp, ThreadPlanStack.DiscardAllPlans,
            ThreadPlanStack.DiscardPlansUpToPlan]
  | discardConsultingMaster =>
      simp [applyOp, ThreadPlanStack.DiscardConsultingMasterPlans]
  | willResume => exact le_refl _
  | checkpoint => exact Nat.le_succ _
  | restore tok =>
      simp only [applyOp, ThreadPlanStack.RestoreCompletedPlanCheckpoint]
      cases h : s.m_completed_plan_store.find? (fun pr => pr.1 == tok) with
      | none => simp
      | some pr => simp
  | dropCheckpoint tok =>
      simp only [applyOp, ThreadPlanStack.DiscardCompletedPlanCheckpoint]
      cases h : s.m_completed_plan_store.find? (fun pr => pr.1 == tok) with
      | none => simp
      | some pr => simp

theorem checkpoint_counter_mono_runOps (ops : List StackOp) :
    ∀ s : ThreadPlanModel.ThreadPlanStack,
      s.m_completed_plan_checkpoint ≤ (runOps s ops).m_completed_plan_checkpoint := by
  induction ops with
  | nil => intro s; exact le_refl _
  | cons op ops ih =>
      intro s
      exact le_trans (checkpoint_counter_mono_applyOp s op) (ih (applyOp s op))

/-- C2: taking a checkpoint, then pushing and popping one plan (so that
`completed` grows by one entry), and restoring the checkpoint brings
`completed` back to exactly its contents and order at checkpoint time;
moreover the tokens handed out come from a monotonically increasing
counter and are never reused: a checkpoint taken after any further
sequence of operations returns a strictly larger token. -/
theorem checkpoint_restore_roundtrip :
    (∀ (s : ThreadPlanModel.ThreadPlanStack) (p : ThreadPlanModel.ThreadPlan),
        ∃ s3 s4 : ThreadPlanModel.ThreadPlanStack,
          (s.CheckpointCompletedPlans.2.PushPlan p).PopPlan = some (p, s3) ∧
          s3.m_completed_plans = s.m_completed_plans ++ [p] ∧
          s3.RestoreCompletedPlanCheckpoint s.CheckpointCompletedPlans.1 = some s4 ∧
          s4.m_completed_plans = s.m_completed_plans) ∧
    (∀ (s : ThreadPlanModel.ThreadPlanStack) (ops : List StackOp),
        s.CheckpointCompletedPlans.1 <
          (runOps s.CheckpointCompletedPlans.2 ops).CheckpointCompletedPlans.1) := by
  constructor
  · intro s p
    refine ⟨{ s with
                m_completed_plans := s.m_completed_plans ++ [p],
                m_completed_plan_checkpoint := s.m_completed_plan_checkpoint + 1,
                m_completed_plan_store :=
                  (s.m_completed_plan_checkpoint + 1, s.m_completed_plans) ::
                    s.m_completed_plan_store },
            { s with
                m_completed_plan_checkpoint := s.m_completed_plan_checkpoint + 1 },
            rfl, rfl, ?_, rfl⟩
    have ht : s.CheckpointCompletedPlans.1 = s.m_completed_plan_checkpoint + 1 := rfl
    rw [ht]
    simp [ThreadPlanStack.RestoreCompletedPlanCheckpoint, List.find?, List.eraseP]
  · intro s ops
    have h := checkpoint_counter_mono_runOps ops s.CheckpointCompletedPlans.2
    have h2 : s.CheckpointCompletedPlans.2.m_completed_plan_checkpoint =
        s.m_completed_plan_checkpoint + 1 := rfl
    have h3 : s.CheckpointCompletedPlans.1 = s.m_completed_plan_checkpoint + 1 := rfl
    have h4 : (runOps s.CheckpointCompletedPlans.2 ops).CheckpointCompletedPlans.1 =
        (runOps s.CheckpointCompletedPlans.2 ops).m_completed_plan_checkpoint + 1 := rfl
    rw [h2] at h
    rw [h3, h4]
    omega

/-- C3: `WillResume` notifies exactly the plans of `active` (in stack
order), empties `completed` and `discarded` entirely, and leaves
`active` (and the rest of the stack state) unchanged. -/
theorem will_resume_clears (s : ThreadPlanModel.ThreadPlanStack) :
    s.WillResume.1 = s.m_plans ∧
    s.WillResume.2.m_plans = s.m_plans ∧
    s.WillResume.2.m_completed_plans = [] ∧
    s.WillResume.2.m_discarded_plans = [] ∧
    s.WillResume.2.m_tid = s.m_tid ∧
    s.WillResume.2.m_completed_plan_checkpoint = s.m_completed_plan_checkpoint ∧
    s.WillResume.2.m_completed_plan_store = s.m_completed_plan_store :=
  ⟨rfl, rfl, rfl, rfl, rfl, rfl, rfl⟩

theorem takeWhile_all_append (P : ThreadPlanModel.ThreadPlan → Bool)
    (above : List ThreadPlanModel.ThreadPlan) (m : ThreadPlanModel.ThreadPlan)
    (rest : List ThreadPlanModel.ThreadPlan)
    (hall : ∀ q ∈ above, P q = true) (hm : P m = false) :
    (above ++ m :: rest).takeWhile P = above ∧
    (above ++ m :: rest).dropWhile P = m :: rest := by
  induction above with
  | nil => simp [List.takeWhile_cons, List.dropWhile_cons, hm]
  | cons a above ih =>
      have ha : P a = true := hall a (List.mem_cons_self a above)
      obtain ⟨h1, h2⟩ := ih (fun q hq => hall q (List.mem_cons_of_mem a hq))
      simp [List.takeWhile_cons, List.dropWhile_cons, ha, h1, h2]

/-- C4: `DiscardConsultingMasterPlans` never discards a plan whose
master flag is set and whose okay-to-discard query returns false; when
`active` is a block of non-blocking plans above such a plan, exactly
that block is discarded, in top-to-bottom order; in particular with
active = [A, B, C] bottom-to-top where A is a blocking master plan,
afterwards discarded = [C, B] and active = [A]. -/
theorem discard_consulting_master_plans :
    (∀ (s : ThreadPlanModel.ThreadPlanStack) (p : ThreadPlanModel.ThreadPlan),
        p ∈ s.DiscardConsultingMasterPlans.m_discarded_plans →
        p ∈ s.m_discarded_plans ∨
          ¬(p.isMasterPlan = true ∧ p.okayToDiscard = false)) ∧
    (∀ (s : ThreadPlanModel.ThreadPlanStack)
        (above : List ThreadPlanModel.ThreadPlan)
        (m : ThreadPlanModel.ThreadPlan) (rest : List ThreadPlanModel.ThreadPlan),
        s.m_plans = above ++ m :: rest →
        (∀ q ∈ above, ThreadPlanStack.blocksDiscard q = false) →
        ThreadPlanStack.blocksDiscard m = true →
        s.DiscardConsultingMasterPlans.m_plans = m :: rest ∧
        s.DiscardConsultingMasterPlans.m_discarded_plans =
          s.m_discarded_plans ++ above) ∧
    (sampleStack.DiscardConsultingMasterPlans.m_plans = [pA] ∧
     sampleStack.DiscardConsultingMasterPlans.m_discarded_plans = [pC, pB]) := by
  refine ⟨?_, ?_, by decide⟩
  · intro s p hp
    unfold ThreadPlanStack.DiscardConsultingMasterPlans at hp
    rcases List.mem_append.mp hp with hold | hnew
    · exact Or.inl hold
    · have hq := List.mem_takeWhile_imp hnew
      right
      intro hcontra
      rw [Bool.not_eq_true', ← Bool.not_eq_true] at hq
      exact hq (by simp [ThreadPlanStack.blocksDiscard, hcontra.1, hcontra.2])
  · intro s above m rest hplans hall hm
    have hall' : ∀ q ∈ above, (fun p => !ThreadPlanStack.blocksDiscard p) q = true := by
      intro q hq
      simp [hall q hq]
    have hm' : (fun p => !ThreadPlanStack.blocksDiscard p) m = false := by simp [hm]
    obtain ⟨h1, h2⟩ := takeWhile_all_append (fun p => !ThreadPlanStack.blocksDiscard p)
      above m rest hall' hm'
    constructor
    · show (s.m_plans.dropWhile fun p => !ThreadPlanStack.blocksDiscard p) = m :: rest
      rw [hplans, h2]
    · show s.m_discarded_plans ++ (s.m_plans.takeWhile fun p => !ThreadPlanStack.blocksDiscard p) =
        s.m_discarded_plans ++ above
      rw [hplans, h1]

/-- Witness for C4 at the concrete stack A (bottom, blocking master),
B, C (top). -/
theorem discard_consulting_master_plans_witness :
    sampleStack.DiscardConsultingMasterPlans.m_plans = [pA] ∧
    sampleStack.DiscardConsultingMasterPlans.m_discarded_plans = [] ++ [pC, pB] :=
  discard_consulting_master_plans.2.1 sampleStack [pC, pB] pA [] rfl
    (by decide) (by decide)

theorem discardUpToAux_found :
    ∀ (i : Nat) (l : List ThreadPlanModel.ThreadPlan) (p : ThreadPlanModel.ThreadPlan),
      l[i]? = some p →
      (∀ (j : Nat) (q : ThreadPlanModel.ThreadPlan),
          j < i → l[j]? = some q → q.id ≠ p.id) →
      ThreadPlanStack.discardUpToAux p.id l =
        some (l.take (i + 1), l.drop (i + 1)) := by
  intro i
  induction i with
  | zero =>
      intro l p hget hmin
      cases l with
      | nil => simp at hget
      | cons a l =>
          have ha : a = p := by simpa using hget
          subst ha
          simp [ThreadPlanStack.discardUpToAux]
  | succ i ih =>
      intro l p hget hmin
      cases l with
      | nil => simp at hget
      | cons a l =>
          have ha : a.id ≠ p.id := hmin 0 a (Nat.succ_pos i) (by simp)
          have hbeq : (a.id == p.id) = false := by simp [ha]
          have hget' : l[i]? = some p := by simpa using hget
          have hmin' : ∀ (j : Nat) (q : ThreadPlanModel.ThreadPlan),
              j < i → l[j]? = some q → q.id ≠ p.id := by
            intro j q hj hq
            exact hmin (j + 1) q (Nat.succ_lt_succ hj) (by simpa using hq)
          have hrec := ih l p hget' hmin'
          simp [ThreadPlanStack.discardUpToAux, hbeq, hrec]

theorem discardUpToAux_not_found (t : Nat) :
    ∀ l : List ThreadPlanModel.ThreadPlan,
      (∀ p ∈ l, p.id ≠ t) → ThreadPlanStack.discardUpToAux t l = none := by
  intro l
  induction l with
  | nil => intro _; rfl
  | cons a l ih =>
      intro h
      have ha : (a.id == t) = false := by
        simp [h a (List.mem_cons_self a l)]
      simp [ThreadPlanStack.discardUpToAux, ha,
            ih (fun p hp => h p (List.mem_cons_of_mem a hp))]

/-- C5: `DiscardPlansUpToPlan` with a target sitting (topmost) at
0-based depth i from the top of `active` moves exactly the i+1 plans
from the top down to and including the target into `discarded`, in
top-to-bottom order, shrinking `active` by i+1; with a target absent
from `active` it changes nothing (no partial discard); with a null
target it discards the entire `active` stack. -/
theorem discard_plans_up_to_plan :
    (∀ (s : ThreadPlanModel.ThreadPlanStack) (i : Nat)
        (p : ThreadPlanModel.ThreadPlan),
        s.m_plans[i]? = some p →
        (∀ (j : Nat) (q : ThreadPlanModel.ThreadPlan),
            j < i → s.m_plans[j]? = some q → q.id ≠ p.id) →
        s.DiscardPlansUpToPlan (some p.id) =
          { s with
              m_plans := s.m_plans.drop (i + 1),
              m_discarded_plans := s.m_discarded_plans ++ s.m_plans.take (i + 1) }) ∧
    (∀ (s : ThreadPlanModel.ThreadPlanStack) (t : Nat),
        (∀ p ∈ s.m_plans, p.id ≠ t) → s.DiscardPlansUpToPlan (some t) = s) ∧
    (∀ s : ThreadPlanModel.ThreadPlanStack,
        s.DiscardPlansUpToPlan none =
          { s with
              m_plans := [],
              m_discarded_plans := s.m_discarded_plans ++ s.m_plans }) := by
  refine ⟨?_, ?_, fun s => rfl⟩
  · intro s i p hget hmin
    have h := discardUpToAux_found i s.m_plans p hget hmin
    simp [ThreadPlanStack.DiscardPlansUpToPlan, h]
  · intro s t h
    simp [ThreadPlanStack.DiscardPlansUpToPlan, discardUpToAux_not_found t s.m_plans h]

/-- Witness for C5: discarding up to plan B (depth 1 from the top) on
the concrete stack [C, B, A] moves C and B to `discarded`. -/
theorem discard_plans_up_to_plan_witness :
    ThreadPlanStack.DiscardPlansUpToPlan sampleStack (some 1) =
      ⟨7, [pA], [], [pC, pB], 0, []⟩ := by
  have h := discard_plans_up_to_plan.1 sampleStack 1 pB (by decide)
    (by
      intro j q hj hq
      have hj0 : j = 0 := Nat.lt_one_iff.mp hj
      subst hj0
      have hq' : pC = q := by
        simpa [sampleStack] using hq
      subst hq'
      decide)
  exact h

/-- C6: popping or discarding from an empty `active` sequence hits the
fatal precondition-violation branch (`none`, never silently recovered);
under the precondition that `active` is non-empty the failure branch is
unreachable and each operation returns the removed top plan. -/
theorem pop_discard_empty_stack :
    (∀ s : ThreadPlanModel.ThreadPlanStack, s.m_plans = [] →
        s.PopPlan = none ∧ s.DiscardPlan = none) ∧
    (∀ (s : ThreadPlanModel.ThreadPlanStack) (p : ThreadPlanModel.ThreadPlan)
        (rest : List ThreadPlanModel.ThreadPlan),
        s.m_plans = p :: rest →
        s.PopPlan = some (p, { s with
                                 m_plans := rest,
                                 m_completed_plans := s.m_completed_plans ++ [p] }) ∧
        s.DiscardPlan = some (p, { s with
                                     m_plans := rest,
                                     m_discarded_plans := s.m_discarded_plans ++ [p] })) := by
  constructor
  · intro s h
    exact ⟨by simp [ThreadPlanStack.PopPlan, h], by simp [ThreadPlanStack.DiscardPlan, h]⟩
  · intro s p rest h
    exact ⟨by simp [ThreadPlanStack.PopPlan, h], by simp [ThreadPlanStack.DiscardPlan, h]⟩

/-- Witness for C6: the empty stack fails both operations, and a
singleton stack pops its only plan. -/
theorem pop_discard_empty_stack_witness :
    (ThreadPlanStack.PopPlan ⟨7, [], [], [], 0, []⟩ = none ∧
     ThreadPlanStack.DiscardPlan ⟨7, [], [], [], 0, []⟩ = none) ∧
    (ThreadPlanStack.PopPlan ⟨7, [pA], [], [], 0, []⟩ =
        some (pA, ⟨7, [], [pA], [], 0, []⟩) ∧
     ThreadPlanStack.DiscardPlan ⟨7, [pA], [], [], 0, []⟩ =
        some (pA, ⟨7, [], [], [pA], 0, []⟩)) :=
  ⟨pop_discard_empty_stack.1 ⟨7, [], [], [], 0, []⟩ rfl,
   pop_discard_empty_stack.2 ⟨7, [pA], [], [], 0, []⟩ pA [] rfl⟩

theorem mapFind_nil (k : Nat) : mapFind [] k = none := rfl

theorem mapFind_cons (pr : Nat × ThreadPlanModel.ThreadPlanStack)
    (rest : List (Nat × ThreadPlanModel.ThreadPlanStack)) (k : Nat) :
    mapFind (pr :: rest) k = if pr.1 == k then some pr.2 else mapFind rest k := by
  unfold mapFind
  rw [List.find?_cons]
  cases hb : pr.1 == k <;> simp [hb]

theorem mapErase_cons (pr : Nat × ThreadPlanModel.ThreadPlanStack)
    (rest : List (Nat × ThreadPlanModel.ThreadPlanStack)) (k : Nat) :
    mapErase (pr :: rest) k = if pr.1 == k then rest else pr :: mapErase rest k := by
  unfold mapErase
  rw [List.eraseP_cons]
  cases hb : pr.1 == k <;> simp [hb]

theorem mapFind_append_single_self (k : Nat) (v : ThreadPlanModel.ThreadPlanStack) :
    ∀ l : List (Nat × ThreadPlanModel.ThreadPlanStack),
      mapFind l k = none → mapFind (l ++ [(k, v)]) k = some v := by
  intro l
  induction l with
  | nil => intro _; simp [mapFind_cons, mapFind_nil]
  | cons pr rest ih =>
      intro h
      rw [mapFind_cons] at h
      rw [List.cons_append, mapFind_cons]
      cases hb : pr.1 == k with
      | true => rw [hb] at h; simp at h
      | false =>
          rw [hb] at h
          simp only [Bool.false_eq_true, if_false] at h
          simp only [Bool.false_eq_true, if_false]
          exact ih h

theorem mapFind_append_single_ne (k k2 : Nat) (v : ThreadPlanModel.ThreadPlanStack)
    (hne : k2 ≠ k) :
    ∀ l : List (Nat × ThreadPlanModel.ThreadPlanStack),
      mapFind (l ++ [(k, v)]) k2 = mapFind l k2 := by
  intro l
  have hb0 : (k == k2) = false := by simp [Ne.symm hne]
  induction l with
  | nil => simp [mapFind_cons, mapFind_nil, hb0]
  | cons pr rest ih =>
      rw [List.cons_append, mapFind_cons, mapFind_cons]
      cases hb : pr.1 == k2 <;> simp [hb, ih]

theorem mapFind_mapAt_self (k : Nat) (v : ThreadPlanModel.ThreadPlanStack) :
    ∀ l : List (Nat × ThreadPlanModel.ThreadPlanStack),
      (mapFind l k).isSome → mapFind (mapAt l k v) k = some v := by
  intro l
  induction l with
  | nil => intro h; simp [mapFind_nil] at h
  | cons pr rest ih =>
      intro h
      rw [mapFind_cons] at h
      cases hb : pr.1 == k with
      | true =>
          unfold mapAt
          rw [hb]
          simp only [if_true]
          rw [mapFind_cons]
          simp [hb]
      | false =>
          rw [hb] at h
          simp only [Bool.false_eq_true, if_false] at h
          unfold mapAt
          rw [hb]
          simp only [Bool.false_eq_true, if_false]
          rw [mapFind_cons]
          simp only [hb, Bool.false_eq_true, if_false]
          exact ih h

theorem mapFind_mapAt_ne (k k2 : Nat) (v : ThreadPlanModel.ThreadPlanStack)
    (hne : k2 ≠ k) :
    ∀ l : List (Nat × ThreadPlanModel.ThreadPlanStack),
      mapFind (mapAt l k v) k2 = mapFind l k2 := by
  intro l
  induction l with
  | nil => rfl
  | cons pr rest ih =>
      cases hb : pr.1 == k with
      | true =>
          have hpr : pr.1 = k := by simpa using hb
          have hb2 : (pr.1 == k2) = false := by simp [hpr, Ne.symm hne]
          unfold mapAt
          rw [hb]
          simp only [if_true]
          rw [mapFind_cons, mapFind_cons]
          simp [hb2]
      | false =>
          unfold mapAt
          rw [hb]
          simp only [Bool.false_eq_true, if_false]
          rw [mapFind_cons, mapFind_cons]
          cases hb2 : pr.1 == k2 <;> simp [hb2, ih]

/-- C8: `Activate` stores the stack under its own stored thread
identifier — inserting when absent, overwriting when present — so that
afterwards `Find` on that identifier returns the activated stack while
`Find` on every other identifier is unchanged. -/
theorem activate_keyed_by_own_tid (m : ThreadPlanModel.ThreadPlanStackMap)
    (st : ThreadPlanModel.ThreadPlanStack) :
    (m.Activate st).Find st.GetTID = some st ∧
    (∀ k : Nat, k ≠ st.GetTID → (m.Activate st).Find k = m.Find k) := by
  unfold ThreadPlanStackMap.Activate ThreadPlanStackMap.Find
  cases hfind : mapFind m.m_plans_list st.GetTID with
  | none =>
      simp only [hfind, Option.isNone_none, if_true]
      constructor
      · exact mapFind_append_single_self st.GetTID st m.m_plans_list hfind
      · intro k hk
        exact mapFind_append_single_ne st.GetTID k st hk m.m_plans_list
  | some v =>
      simp only [hfind, Option.isNone_some, if_false]
      constructor
      · exact mapFind_mapAt_self st.GetTID st m.m_plans_list (by rw [hfind]; rfl)
      · intro k hk
        exact mapFind_mapAt_ne st.GetTID k st hk m.m_plans_list

/-- Witness for C8: activating the detached stack with identifier 7
into a registry holding only key 5 makes `Find 7` return it and leaves
`Find 5` unchanged. -/
theorem activate_keyed_by_own_tid_witness :
    (ThreadPlanStackMap.Find
        (ThreadPlanStackMap.Activate ⟨[(5, sampleStack2)]⟩ sampleStack) 7 =
      some sampleStack) ∧
    (ThreadPlanStackMap.Find
        (ThreadPlanStackMap.Activate ⟨[(5, sampleStack2)]⟩ sampleStack) 5 =
      ThreadPlanStackMap.Find ⟨[(5, sampleStack2)]⟩ 5) :=
  ⟨(activate_keyed_by_own_tid ⟨[(5, sampleStack2)]⟩ sampleStack).1,
   (activate_keyed_by_own_tid ⟨[(5, sampleStack2)]⟩ sampleStack).2 5 (by decide)⟩

theorem cleanUpStep_none (acc : List (Nat × ThreadPlanModel.ThreadPlanStack) ×
    List ThreadPlanModel.ThreadPlanStack) (tid : Nat)
    (h : mapFind acc.1 tid = none) :
    ThreadPlanStackMap.cleanUpStep acc tid = acc := by
  unfold ThreadPlanStackMap.cleanUpStep
  unfold mapFind at h
  cases hf : acc.1.find? (fun pr => pr.1 == tid) with
  | none => simp [hf]
  | some pr => rw [hf] at h; simp at h

theorem cleanUpStep_some (acc : List (Nat × ThreadPlanModel.ThreadPlanStack) ×
    List ThreadPlanModel.ThreadPlanStack) (tid : Nat)
    (v : ThreadPlanModel.ThreadPlanStack) (h : mapFind acc.1 tid = some v) :
    ThreadPlanStackMap.cleanUpStep acc tid = (mapErase acc.1 tid, acc.2 ++ [v]) := by
  unfold ThreadPlanStackMap.cleanUpStep
  unfold mapFind at h
  cases hf : acc.1.find? (fun pr => pr.1 == tid) with
  | none => rw [hf] at h; simp at h
  | some pr =>
      rw [hf] at h
      simp only [Option.some.injEq] at h
      simp [hf, h]

theorem cleanUpStep_cons (pr : Nat × ThreadPlanModel.ThreadPlanStack) :
    ∀ (ts : List Nat) (rest : List (Nat × ThreadPlanModel.ThreadPlanStack))
      (acc : List ThreadPlanModel.ThreadPlanStack),
      (∀ t ∈ ts, pr.1 ≠ t) →
      ts.foldl ThreadPlanStackMap.cleanUpStep (pr :: rest, acc) =
        (pr :: (ts.foldl ThreadPlanStackMap.cleanUpStep (rest, acc)).1,
         (ts.foldl ThreadPlanStackMap.cleanUpStep (rest, acc)).2) := by
  intro ts
  induction ts with
  | nil => intro rest acc _; rfl
  | cons t ts ih =>
      intro rest acc h
      have ht : pr.1 ≠ t := h t (List.mem_cons_self t ts)
      have hts : ∀ u ∈ ts, pr.1 ≠ u := fun u hu => h u (List.mem_cons_of_mem t hu)
      have hb : (pr.1 == t) = false := by simp [ht]
      show List.foldl ThreadPlanStackMap.cleanUpStep
        (ThreadPlanStackMap.cleanUpStep (pr :: rest, acc) t) ts = _
      cases hf : mapFind rest t with
      | none =>
          have hcons : mapFind (pr :: rest) t = none := by
            rw [mapFind_cons, hb]
            simpa using hf
          rw [cleanUpStep_none (pr :: rest, acc) t hcons]
          conv_rhs =>
            rw [List.foldl_cons, cleanUpStep_none (rest, acc) t hf]
          exact ih rest acc hts
      | some v =>
          have hcons : mapFind (pr :: rest) t = some v := by
            rw [mapFind_cons, hb]
            simpa using hf
          rw [cleanUpStep_some (pr :: rest, acc) t v hcons]
          have herase : mapErase (pr :: rest) t = pr :: mapErase rest t := by
            rw [mapErase_cons, hb]
            simp
          rw [herase]
          conv_rhs =>
            rw [List.foldl_cons, cleanUpStep_some (rest, acc) t v hf]
          exact ih (mapErase rest t) (acc ++ [v]) hts

theorem cleanUp_fold :
    ∀ (l : List (Nat × ThreadPlanModel.ThreadPlanStack))
      (acc : List ThreadPlanModel.ThreadPlanStack),
      (l.map Prod.fst).Nodup →
      ((l.filter (fun pr => !(pr.2.GetTID == pr.1))).map Prod.fst).foldl
          ThreadPlanStackMap.cleanUpStep (l, acc) =
        (l.filter (fun pr => pr.2.GetTID == pr.1),
         acc ++ (l.filter (fun pr => !(pr.2.GetTID == pr.1))).map Prod.snd) := by
  intro l
  induction l with
  | nil => intro acc _; simp
  | cons pr l ih =>
      intro acc h
      rw [List.map_cons, List.nodup_cons] at h
      obtain ⟨hnot, hnd⟩ := h
      cases hP : pr.2.GetTID == pr.1 with
      | true =>
          have hfl : List.filter (fun pr => !(pr.2.GetTID == pr.1)) (pr :: l) =
              List.filter (fun pr => !(pr.2.GetTID == pr.1)) l := by
            rw [List.filter_cons]
            simp [hP]
          have hfl2 : List.filter (fun pr => pr.2.GetTID == pr.1) (pr :: l) =
              pr :: List.filter (fun pr => pr.2.GetTID == pr.1) l := by
            rw [List.filter_cons]
            simp [hP]
          rw [hfl, hfl2]
          have hts : ∀ t ∈ (List.filter (fun pr => !(pr.2.GetTID == pr.1)) l).map
              Prod.fst, pr.1 ≠ t := by
            intro t ht
            rcases List.mem_map.mp ht with ⟨x, hx, hxt⟩
            intro hcontra
            apply hnot
            rw [hcontra, ← hxt]
            exact List.mem_map_of_mem Prod.fst (List.mem_of_mem_filter hx)
          rw [cleanUpStep_cons pr _ l acc hts, ih acc hnd]
      | false =>
          have hfl : List.filter (fun pr => !(pr.2.GetTID == pr.1)) (pr :: l) =
              pr :: List.filter (fun pr => !(pr.2.GetTID == pr.1)) l := by
            rw [List.filter_cons]
            simp [hP]
          have hfl2 : List.filter (fun pr => pr.2.GetTID == pr.1) (pr :: l) =
              List.filter (fun pr => pr.2.GetTID == pr.1) l := by
            rw [List.filter_cons]
            simp [hP]
          rw [hfl, hfl2, List.map_cons]
          have hhead : mapFind (pr :: l) pr.1 = some pr.2 := by
            rw [mapFind_cons]
            simp
          have herase : mapErase (pr :: l) pr.1 = l := by
            rw [mapErase_cons]
            simp
          rw [List.foldl_cons, cleanUpStep_some (pr :: l, acc) pr.1 pr.2 hhead,
              herase, ih (acc ++ [pr.2]) hnd]
          simp

/-- C7: `CleanUp` detaches and returns exactly the registry entries
whose stack's stored thread identifier differs from the map key they
are stored under, and keeps every entry whose stored identifier matches
its key, unchanged and in place. -/
theorem clean_up_detaches_mismatched (m : ThreadPlanModel.ThreadPlanStackMap)
    (h : (m.m_plans_list.map Prod.fst).Nodup) :
    m.CleanUp.2.m_plans_list =
      m.m_plans_list.filter (fun pr => pr.2.GetTID == pr.1) ∧
    m.CleanUp.1 =
      (m.m_plans_list.filter (fun pr => !(pr.2.GetTID == pr.1))).map Prod.snd := by
  have hfold := cleanUp_fold m.m_plans_list [] h
  unfold ThreadPlanStackMap.CleanUp
  dsimp only
  rw [hfold]
  exact ⟨rfl, rfl⟩

/-- Witness for C7: in a registry where key 5 holds a matching stack
and key 6 holds a stack whose stored identifier is 7, `CleanUp`
detaches exactly the key-6 entry and keeps key 5. -/
theorem clean_up_detaches_mismatched_witness :
    (ThreadPlanStackMap.CleanUp
        ⟨[(5, sampleStack2), (6, sampleStack)]⟩).2.m_plans_list =
      [(5, sampleStack2)] ∧
    (ThreadPlanStackMap.CleanUp ⟨[(5, sampleStack2), (6, sampleStack)]⟩).1 =
      [sampleStack] := by
  have h := clean_up_detaches_mismatched ⟨[(5, sampleStack2), (6, sampleStack)]⟩
    (by decide)
  simpa [sampleStack, sampleStack2, mapFind, ThreadPlanStack.GetTID] using h

/-- C9: `Clear` notifies every registered stack of destruction exactly
once (the notification list is exactly the registry's stacks, in
registry order) and then empties the registry, after which `Find`
returns `none` for every thread identifier. -/
theorem clear_notifies_and_empties (m : ThreadPlanModel.ThreadPlanStackMap) :
    m.Clear.1 = m.m_plans_list.map Prod.snd ∧
    m.Clear.2.m_plans_list = [] ∧
    ∀ tid : Nat, m.Clear.2.Find tid = none := by
  refine ⟨rfl, rfl, fun tid => rfl⟩

/-- C10: `AddThread` on a thread whose identifier already has a registry
entry leaves the registry completely unchanged (`emplace` does not
overwrite an existing key). -/
theorem add_thread_existing_noop (m : ThreadPlanModel.ThreadPlanStackMap)
    (t : ThreadPlanModel.Thread) (h : (m.Find t.GetID).isSome) :
    m.AddThread t = m := by
  unfold ThreadPlanStackMap.AddThread mapEmplace
  unfold ThreadPlanStackMap.Find mapFind at h
  cases hf : m.m_plans_list.find? (fun pr => pr.1 == t.GetID) with
  | none => rw [hf] at h; simp at h
  | some pr => simp [hf]

/-- Witness for C10: re-adding thread 7 to a registry that already maps
key 7 changes nothing. -/
theorem add_thread_existing_noop_witness :
    ThreadPlanStackMap.AddThread ⟨[(7, sampleStack)]⟩ ⟨7⟩ = ⟨[(7, sampleStack)]⟩ :=
  add_thread_existing_noop ⟨[(7, sampleStack)]⟩ ⟨7⟩ (by decide)

end ThreadPlanModel
